import Mathlib

/-!
Verification of the Ewald-summation core of the pyqmc repository
(`src/pyqmc/ewald.py`) against its natural-language specification.

The numerical code is shallowly embedded over the real numbers: numpy
arrays of shape (3,) become `Vec3 = Fin 3 → ℝ`, (3,3) arrays become
Mathlib matrices, batched quantities become lists, and the mutable
`Ewald` object becomes an explicit `Ewald` state record threaded through
the evaluators.  `scipy.special.erfc` is external to the repository and
enters every real-space sum only through its values, so it is taken as an
arbitrary function parameter `erfc : ℝ → ℝ`.  The `pyqmc.distance`
module is not part of the sources; its minimum-image displacement
primitive is modelled from the spec (see `minimalImage`).
-/

set_option maxHeartbeats 1000000

noncomputable section

namespace PyQMC

open scoped Classical
open Matrix Complex

/-- Real 3-vectors, modelling numpy arrays of shape (3,). -/
abbrev Vec3 := Fin 3 → ℝ

/-- Real 3×3 matrices, modelling numpy arrays of shape (3, 3); row `i` is the
`i`-th lattice vector, as in `cell.lattice_vectors()`. -/
abbrev Mat3 := Matrix (Fin 3) (Fin 3) ℝ

/-- Integer triples, the loop variables of `np.meshgrid(np.arange ...)`. -/
abbrev ITriple := ℤ × ℤ × ℤ

/-- Euclidean norm of a 3-vector (`np.linalg.norm(..., axis=-1)`). -/
def norm3 (v : Vec3) : ℝ := Real.sqrt (dotProduct v v)

/-- Cast an integer triple to a real 3-vector. -/
def toRVec (n : ITriple) : Vec3 := ![(n.1 : ℝ), (n.2.1 : ℝ), (n.2.2 : ℝ)]

/-- All integer triples with each coordinate in `[-k, k]`, in the order
produced by `np.meshgrid(*[np.arange(-k, k+1)]*3, indexing="ij")` followed by
`ravel`: the first coordinate varies slowest. -/
def cube (k : ℕ) : List ITriple :=
  let r : List ℤ := (List.range (2 * k + 1)).map fun i => (i : ℤ) - (k : ℤ)
  r.flatMap fun x => r.flatMap fun y => r.map fun z => (x, y, z)

/-- Modelled from the spec: `pyqmc.distance.MinimalImageDistance` is not among
the provided sources.  The spec requires the configuration type to expose a
minimum-image pairwise-displacement primitive; we model it as the standard
minimum-image map that subtracts the nearest integer combination of lattice
vectors, obtained by rounding the fractional coordinates. -/
def minimalImage (latvec : Mat3) (v : Vec3) : Vec3 :=
  v - Matrix.vecMul (fun i => ((round (Matrix.vecMul v latvec⁻¹ i) : ℤ) : ℝ)) latvec

/-- The real-space image displacements of `set_lattice_displacements`:
`np.dot(xyz, self.latvec)` over the symmetric integer cube `[-nlatvec, nlatvec]³`. -/
def latticeDisplacements (latvec : Mat3) (nlatvec : ℕ) : List Vec3 :=
  (cube nlatvec).map fun n => Matrix.vecMul (toRVec n) latvec

/-- The matrix `crossproduct = recvec.T * cellvolume` of
`set_up_reciprocal_ewald_sum`. -/
def crossprod (latvec : Mat3) : Mat3 := (Matrix.det latvec) • latvec⁻¹.transpose

/-- `tmpheight_i = np.einsum("ij,ij->i", crossproduct, self.latvec)`. -/
def tmpheight (latvec : Mat3) (i : Fin 3) : ℝ := ∑ j, crossprod latvec i j * latvec i j

/-- `length_i = np.linalg.norm(crossproduct, axis=1)`. -/
def rowlen (latvec : Mat3) (i : Fin 3) : ℝ := Real.sqrt (∑ j, (crossprod latvec i j) ^ 2)

/-- `smallestheight = np.amin(np.abs(tmpheight_i) / length_i)`. -/
def smallestheight (latvec : Mat3) : ℝ :=
  min (min (|tmpheight latvec 0| / rowlen latvec 0) (|tmpheight latvec 1| / rowlen latvec 1))
    (|tmpheight latvec 2| / rowlen latvec 2)

/-- `self.alpha = 5.0 / smallestheight`. -/
def alphaOf (latvec : Mat3) : ℝ := 5.0 / smallestheight latvec

/-- The lexicographic half-space test `X + 1e-6*Y + 1e-12*Z > 0` selecting
`positive_octants` in `set_up_reciprocal_ewald_sum`. -/
def halfspace (n : ITriple) : Prop :=
  0 < (n.1 : ℝ) + 1e-6 * (n.2.1 : ℝ) + 1e-12 * (n.2.2 : ℝ)

/-- The integer triples surviving the half-space restriction. -/
def gcands (gmax : ℕ) : List ITriple :=
  (cube gmax).filter fun n => decide (halfspace n)

/-- A candidate reciprocal vector: `np.dot(gpoints, recvec) * 2 * np.pi`. -/
def toG (latvec : Mat3) (n : ITriple) : Vec3 :=
  (2 * Real.pi) • Matrix.vecMul (toRVec n) latvec⁻¹

/-- The weight `gweight = 4π·exp(-gsquared/(4 alpha²)) / (cellvolume · gsquared)`
attached to a reciprocal vector `g`. -/
def gwOf (latvec : Mat3) (g : Vec3) : ℝ :=
  4 * Real.pi * Real.exp (-(dotProduct g g) / (4 * (alphaOf latvec) ^ 2)) /
    (Matrix.det latvec * dotProduct g g)

/-- The stored reciprocal data `(self.gpoints, self.gweight)`, kept as a list of
pairs: half-space-restricted candidates filtered by `gweight > 1e-10`. -/
def gdataOf (latvec : Mat3) (gmax : ℕ) : List (Vec3 × ℝ) :=
  ((gcands gmax).map fun n => (toG latvec n, gwOf latvec (toG latvec n))).filter
    fun p => decide ((1e-10 : ℝ) < p.2)

/-- The complex exponential `exp(1j * G·x)` appearing in all reciprocal sums. -/
def eG (g v : Vec3) : ℂ := Complex.exp (((dotProduct g v : ℝ) : ℂ) * Complex.I)

/-- The per-configuration electron structure factor
`sum_e_exp = np.sum(np.exp(1j*e_GdotR), axis=1)`. -/
def strucFac {ne : ℕ} (x : Fin ne → Vec3) (g : Vec3) : ℂ := ∑ i, eG g (x i)

/-- The ion structure factor `self.ion_exp = np.dot(np.exp(1j*GdotR), atom_charges)`
evaluated at one reciprocal vector. -/
def ionSF (atoms : List Vec3) (charges : List ℝ) (g : Vec3) : ℂ :=
  ((charges.zip atoms).map fun za => (za.1 : ℂ) * eG g za.2).sum

/-- One real-space image sum `Σ_n erfc(alpha·r)/r` with
`r = |minimal_image(v) + n|`, the building block shared by all real-space
parts (`erfc(self.alpha * r) / r` summed over `lattice_displacements`). -/
def rsumRaw (erfc : ℝ → ℝ) (latvec : Mat3) (disp : List Vec3) (alpha : ℝ) (v : Vec3) : ℝ :=
  (disp.map fun d =>
    erfc (alpha * norm3 (minimalImage latvec v + d)) / norm3 (minimalImage latvec v + d)).sum

/-- The real-space ion-ion double sum of `ewald_ion`: unordered pairs `I < J`
of fixed particles, each with charge product `Z_I·Z_J`. -/
def ionPairSum (erfc : ℝ → ℝ) (latvec : Mat3) (disp : List Vec3) (alpha : ℝ)
    (atoms : List Vec3) (charges : List ℝ) : ℝ :=
  ∑ j ∈ Finset.range atoms.length, ∑ i ∈ Finset.range j,
    charges.getD i 0 * charges.getD j 0 *
      rsumRaw erfc latvec disp alpha (atoms.getD j 0 - atoms.getD i 0)

/-- The state held by the `Ewald` object: the immutable setup artifacts
(lattice, fixed particles, displacement list, alpha, reciprocal data, ion
structure factor, constants, ion-ion energy) together with the per-particle
decomposition cache written by `ewald_electron`
(`self.ee_separated`, `self.ei_separated`, `self.ewalde_separated`). -/
structure Ewald where
  latvec : Mat3
  atom_coords : List Vec3
  atom_charges : List ℝ
  lattice_displacements : List Vec3
  alpha : ℝ
  gdata : List (Vec3 × ℝ)
  ion_exp : List ℂ
  ijconst : ℝ
  squareconst : ℝ
  ii_const : ℝ
  ion_ion : ℝ
  ee_separated : List (List ℝ)
  ei_separated : List (List ℝ)
  ewalde_separated : List (List ℝ)

/-- `i_sum = np.sum(self.atom_charges)`. -/
def Ewald.i_sum (st : Ewald) : ℝ := st.atom_charges.sum

/-- `self.ee_const = lambda ne: ne * (ne - 1) / 2 * ijconst + ne * squareconst`. -/
def Ewald.ee_const (st : Ewald) (ne : ℕ) : ℝ :=
  (ne : ℝ) * ((ne : ℝ) - 1) / 2 * st.ijconst + (ne : ℝ) * st.squareconst

/-- `self.ei_const = lambda ne: -ne * i_sum * ijconst`. -/
def Ewald.ei_const (st : Ewald) (ne : ℕ) : ℝ := -(ne : ℝ) * st.i_sum * st.ijconst

/-- `self.e_single = lambda ne: (ne - 1) * ijconst - i_sum * ijconst + squareconst`. -/
def Ewald.e_single (st : Ewald) (ne : ℕ) : ℝ :=
  ((ne : ℝ) - 1) * st.ijconst - st.i_sum * st.ijconst + st.squareconst

/-- `self.e_single_test = -i_sum * ijconst + squareconst`. -/
def Ewald.e_single_test (st : Ewald) : ℝ := -st.i_sum * st.ijconst + st.squareconst

/-- Sum of the stored reciprocal weights, `self.gweight.sum()`. -/
def gwsum (st : Ewald) : ℝ := (st.gdata.map Prod.snd).sum

/-- Real-space image sum for this state's lattice, displacement list and alpha. -/
def rsum (erfc : ℝ → ℝ) (st : Ewald) (v : Vec3) : ℝ :=
  rsumRaw erfc st.latvec st.lattice_displacements st.alpha v

/-- The setup computation shared by `__init__` /
`set_up_reciprocal_ewald_sum` / `set_ewald_constants` / `ewald_ion`, for an
invertible lattice (the branch in which `np.linalg.inv` succeeds).  The
decomposition cache starts empty: the Python object has no separated-energy
attributes until `ewald_electron` first runs. -/
def setupAux (erfc : ℝ → ℝ) (atoms : List Vec3) (charges : List ℝ) (latvec : Mat3)
    (ewald_gmax nlatvec : ℕ) : Ewald :=
  let disp := latticeDisplacements latvec nlatvec
  let alpha := alphaOf latvec
  let gd := gdataOf latvec ewald_gmax
  let cellvolume := Matrix.det latvec
  let ijconst := -Real.pi / (cellvolume * alpha ^ 2)
  let squareconst := -alpha / Real.sqrt Real.pi + ijconst / 2
  let isum := charges.sum
  let iisum2 := (charges.map fun z => z ^ 2).sum
  let iisum := (isum ^ 2 - iisum2) / 2
  let ion_ion_real :=
    if charges.length = 1 then 0 else ionPairSum erfc latvec disp alpha atoms charges
  let ion_ion_rec := (gd.map fun p => p.2 * Complex.normSq (ionSF atoms charges p.1)).sum
  { latvec := latvec
    atom_coords := atoms
    atom_charges := charges
    lattice_displacements := disp
    alpha := alpha
    gdata := gd
    ion_exp := gd.map fun p => ionSF atoms charges p.1
    ijconst := ijconst
    squareconst := squareconst
    ii_const := iisum * ijconst + iisum2 * squareconst
    ion_ion := ion_ion_real + ion_ion_rec
    ee_separated := []
    ei_separated := []
    ewalde_separated := [] }

/-- Errors surfaced by the numerical code.  `linAlgError` models
`numpy.linalg.LinAlgError` raised by `np.linalg.inv` on a singular matrix;
`valueError` models the numpy shape-mismatch failure of broadcasting.
`geometryError` is modelled from the spec: the spec's `GeometryError` type
for degenerate lattices, which never occurs anywhere in the sources. -/
inductive PyError where
  | linAlgError : PyError
  | valueError : PyError
  | geometryError : PyError
deriving DecidableEq

/-- Construction of the `Ewald` object.  `np.linalg.inv(self.latvec)` raises
`LinAlgError` exactly when the lattice-vector matrix is singular; otherwise
the setup runs to completion. -/
def setUp (erfc : ℝ → ℝ) (atoms : List Vec3) (charges : List ℝ) (latvec : Mat3)
    (ewald_gmax nlatvec : ℕ) : Except PyError Ewald :=
  if Matrix.det latvec = 0 then .error .linAlgError
  else .ok (setupAux erfc atoms charges latvec ewald_gmax nlatvec)

/-- A batch of configurations, numpy shape `(nconf, ne, 3)`: `ne` mobile
particles per configuration, one entry of `pos` per configuration. -/
structure Configs where
  ne : ℕ
  pos : List (Fin ne → Vec3)

/-- Real-space electron-ion share of one mobile particle at `p`:
`np.einsum("k,ijkl->ji", -atom_charges, erfc(alpha*r)/r)` restricted to that
particle — the sum over fixed particles and lattice images. -/
def eiRealOne (erfc : ℝ → ℝ) (st : Ewald) (p : Vec3) : ℝ :=
  ((st.atom_charges.zip st.atom_coords).map fun za => -za.1 * rsum erfc st (p - za.2)).sum

/-- Real-space electron-electron share of particle `i`
(`ee_matrix.sum(axis=-1) / 2` after symmetrizing the pair values, and the
explicit zero branch for `nelec <= 1`). -/
def eeRealSep (erfc : ℝ → ℝ) (st : Ewald) {ne : ℕ} (x : Fin ne → Vec3) (i : Fin ne) : ℝ :=
  if 1 < ne then
    (∑ j, if i < j then rsum erfc st (x j - x i)
      else if j < i then rsum erfc st (x i - x j) else 0) / 2
  else 0

/-- Reciprocal-space electron-electron share of particle `i`:
`np.dot(np.real(sum_e_exp.conj() * e_expGdotR) - 0.5, self.gweight)`. -/
def eeRecipSep (st : Ewald) {ne : ℕ} (x : Fin ne → Vec3) (i : Fin ne) : ℝ :=
  (st.gdata.map fun gw =>
    (((starRingEnd ℂ) (strucFac x gw.1) * eG gw.1 (x i)).re - 0.5) * gw.2).sum

/-- Reciprocal-space electron-ion share of a mobile particle at `p`:
`np.dot(np.real(-self.ion_exp.conj() * e_expGdotR), self.gweight)`. -/
def eiRecipOne (st : Ewald) (p : Vec3) : ℝ :=
  ((st.gdata.zip st.ion_exp).map fun q =>
    (-(starRingEnd ℂ) q.2 * eG q.1.1 p).re * q.1.2).sum

/-- Combined electron-ion share: `ei_real_separated + 2 * ei_recip_separated`. -/
def eiSep (erfc : ℝ → ℝ) (st : Ewald) {ne : ℕ} (x : Fin ne → Vec3) (i : Fin ne) : ℝ :=
  eiRealOne erfc st (x i) + 2 * eiRecipOne st (x i)

/-- Combined electron-electron share: `ee_real_separated + 1 * ee_recip_separated`. -/
def eeSep (erfc : ℝ → ℝ) (st : Ewald) {ne : ℕ} (x : Fin ne → Vec3) (i : Fin ne) : ℝ :=
  eeRealSep erfc st x i + 1 * eeRecipSep st x i

/-- The method `ewald_electron`: computes the per-particle decompositions,
caches them on the object (`self.ee_separated`, `self.ei_separated`,
`self.ewalde_separated`) and returns
`ee = ee_separated.sum(axis=1) + nelec/2*gweight.sum()` and
`ei = ei_separated.sum(axis=1)`. -/
def ewald_electron (erfc : ℝ → ℝ) (st : Ewald) (c : Configs) :
    (List ℝ × List ℝ) × Ewald :=
  let eeS := c.pos.map fun x => List.ofFn fun i => eeSep erfc st x i
  let eiS := c.pos.map fun x => List.ofFn fun i => eiSep erfc st x i
  let st' := { st with
    ee_separated := eeS
    ei_separated := eiS
    ewalde_separated := c.pos.map fun x => List.ofFn fun i =>
      eiSep erfc st x i + eeSep erfc st x i }
  ((eeS.map fun row => row.sum + (c.ne : ℝ) / 2 * gwsum st, eiS.map List.sum), st')

/-- The method `energy`: `ewald_electron` plus the self/background constants,
and the precomputed ion-ion energy. -/
def energy (erfc : ℝ → ℝ) (st : Ewald) (c : Configs) :
    (List ℝ × List ℝ × ℝ) × Ewald :=
  let r := ewald_electron erfc st c
  ((r.1.1.map fun v => v + st.ee_const c.ne,
    (r.1.2.map fun v => v + st.ei_const c.ne,
     st.ion_ion + st.ii_const)), r.2)

/-- The method `energy_separated`: `self.e_single(nelec) + self.ewalde_separated`,
reading only the electron count of its argument and the cached decomposition. -/
def energy_separated (st : Ewald) (c : Configs) : List (List ℝ) :=
  st.ewalde_separated.map fun row => row.map fun v => st.e_single c.ne + v

/-- Column `j < nelec` of `energy_with_test_pos`: the `ijconst` initialization
plus the one-sided real-space pair sum and the doubled reciprocal cross term
`2 * np.dot(np.real(test_exp.conj() * e_expGdotR), self.gweight)`. -/
def vtestCol (erfc : ℝ → ℝ) (st : Ewald) {ne : ℕ} (x : Fin ne → Vec3) (t : Vec3)
    (j : Fin ne) : ℝ :=
  st.ijconst + rsum erfc st (t - x j) +
    2 * (st.gdata.map fun gw =>
      ((starRingEnd ℂ) (eG gw.1 t) * eG gw.1 (x j)).re * gw.2).sum

/-- Last column of `energy_with_test_pos`: `e_single_test` plus the test
particle's real-space ion sum plus
`2 * np.dot(np.real(-ion_exp.conj()*test_exp) + 0.5, self.gweight)`. -/
def vtestLast (erfc : ℝ → ℝ) (st : Ewald) (t : Vec3) : ℝ :=
  st.e_single_test + eiRealOne erfc st t +
    2 * ((st.gdata.zip st.ion_exp).map fun q =>
      ((-(starRingEnd ℂ) q.2 * eG q.1.1 t).re + 0.5) * q.1.2).sum

/-- The method `energy_with_test_pos`: one row of `nelec + 1` columns per
configuration paired with its proposed test position. -/
def energy_with_test_pos (erfc : ℝ → ℝ) (st : Ewald) (c : Configs) (epos : List Vec3) :
    List (List ℝ) :=
  (c.pos.zip epos).map fun p =>
    List.ofFn (Fin.snoc (fun j => vtestCol erfc st p.1 p.2 j) (vtestLast erfc st p.2))

/-- Modelled from the spec: the distance primitives of the absent
`pyqmc.distance` module operate on the trailing coordinate axis and require it
to match the cell's dimensionality 3; a row of any other length is a
shape/broadcast mismatch (`valueError`). -/
def toVec3 (l : List ℝ) : Except PyError Vec3 :=
  match l with
  | [a, b, c] => .ok ![a, b, c]
  | _ => .error .valueError

/-- Sequencing of fallible element conversions, propagating the first error
(the numpy exception aborts the whole vectorized operation). -/
def mapE (f : α → Except PyError β) : List α → Except PyError (List β)
  | [] => .ok []
  | a :: l =>
    match f a with
    | .error e => .error e
    | .ok b =>
      match mapE f l with
      | .error e => .error e
      | .ok r => .ok (b :: r)

/-- Modelled from the spec: entry of `ewald_electron` on a raw position array
of shape `(nconf, ne, ndim)`.  The distance primitives consume the coordinate
rows before any result is produced or any attribute of the object is written
(the separated-energy cache is only assigned after all sums compete), so a
dimension mismatch aborts with no partial results and no state change. -/
def ewald_electron_raw (erfc : ℝ → ℝ) (st : Ewald) (ne : ℕ)
    (raw : List (List (List ℝ))) : Except PyError ((List ℝ × List ℝ) × Ewald) :=
  match mapE (mapE toVec3) raw with
  | .error e => .error e
  | .ok parsed =>
    .ok (ewald_electron erfc st ⟨ne, parsed.map fun rows => fun i => rows.getD i 0⟩)

/-- The spec's pairwise coefficient `C_pair = -π/(V·α²)` (§3, §4.2). -/
def specCpair (V alpha : ℝ) : ℝ := -Real.pi / (V * alpha ^ 2)

/-- The spec's per-particle coefficient `C_self = -α/√π + C_pair/2` (§3, §4.2). -/
def specCself (V alpha : ℝ) : ℝ := -alpha / Real.sqrt Real.pi + specCpair V alpha / 2

/-- The spec's mobile-mobile self+background constant
`Ne·(Ne-1)/2·C_pair + Ne·C_self` (§4.2). -/
def specMobileMobile (V alpha : ℝ) (ne : ℕ) : ℝ :=
  (ne : ℝ) * ((ne : ℝ) - 1) / 2 * specCpair V alpha + (ne : ℝ) * specCself V alpha

/-- The spec's mobile-fixed constant `-Ne·(Σ fixed charges)·C_pair` (§4.2). -/
def specMobileFixed (V alpha zsum : ℝ) (ne : ℕ) : ℝ :=
  -(ne : ℝ) * zsum * specCpair V alpha

/-- The spec's per-mobile-particle constant
`(Ne-1)·C_pair - (Σ fixed charges)·C_pair + C_self` (§4.2). -/
def specPerParticle (V alpha zsum : ℝ) (ne : ℕ) : ℝ :=
  ((ne : ℝ) - 1) * specCpair V alpha - zsum * specCpair V alpha + specCself V alpha

/-- A trivial stand-in for the external `scipy.special.erfc` used when
instantiating theorems at concrete inputs whose value does not depend on it. -/
def erfc0 : ℝ → ℝ := fun _ => 0

/-- The concrete cubic cell of side 1 (identity lattice), with no fixed
particles, `ewald_gmax = 1`, `nlatvec = 2`, used for concrete instances. -/
def ceSt : Ewald := setupAux erfc0 [] [] 1 1 2

/-- A single-electron configuration batch with one configuration at the
origin. -/
def cfg1 : Configs := ⟨1, [fun _ => 0]⟩

/-! ### Generic summation lemmas -/

theorem lsum_add {α : Type*} (l : List α) (f g : α → ℝ) :
    (l.map fun a => f a + g a).sum = (l.map f).sum + (l.map g).sum := by
  induction l with
  | nil => simp
  | cons a l ih => simp [ih]; ring

theorem lsum_mul {α : Type*} (c : ℝ) (l : List α) (f : α → ℝ) :
    (l.map fun a => c * f a).sum = c * (l.map f).sum := by
  induction l with
  | nil => simp
  | cons a l ih => simp [ih]; ring

theorem lsum_swap {ι α : Type*} (s : Finset ι) (l : List α) (f : ι → α → ℝ) :
    ∑ i ∈ s, (l.map (f i)).sum = (l.map fun a => ∑ i ∈ s, f i a).sum := by
  induction l with
  | nil => simp
  | cons a l ih => simp [← ih, Finset.sum_add_distrib]

/-! ### Facts about the complex exponentials -/

theorem normSq_eG (g v : Vec3) : Complex.normSq (eG g v) = 1 := by
  rw [eG, ← Complex.sq_abs, Complex.abs_exp_ofReal_mul_I]
  norm_num

theorem conj_mul_self_re (z : ℂ) : ((starRingEnd ℂ) z * z).re = Complex.normSq z := by
  rw [mul_comm, Complex.mul_conj]
  simp

/-! ### The reciprocal-space electron-electron total -/

theorem ee_recip_total (st : Ewald) {ne : ℕ} (x : Fin ne → Vec3) :
    (∑ i, eeRecipSep st x i) + (ne : ℝ) / 2 * gwsum st
      = (st.gdata.map fun gw => gw.2 * Complex.normSq (strucFac x gw.1)).sum := by
  unfold eeRecipSep gwsum
  rw [lsum_swap, ← lsum_mul, ← lsum_add]
  refine congrArg List.sum (List.map_congr_left fun gw _ => ?_)
  have hS : ∑ i, ((starRingEnd ℂ) (strucFac x gw.1) * eG gw.1 (x i)).re
      = Complex.normSq (strucFac x gw.1) := by
    rw [← Complex.re_sum, ← Finset.mul_sum, ← strucFac, conj_mul_self_re]
  have hsplit : ∑ i, (((starRingEnd ℂ) (strucFac x gw.1) * eG gw.1 (x i)).re - 0.5) * gw.2
      = (∑ i, ((starRingEnd ℂ) (strucFac x gw.1) * eG gw.1 (x i)).re) * gw.2
        - (ne : ℝ) * 0.5 * gw.2 := by
    rw [← Finset.sum_mul, Finset.sum_sub_distrib]
    simp [Finset.sum_const, Finset.card_univ, mul_comm]
    ring
  rw [hsplit, hS]
  ring

/-! ### The real-space electron-electron total -/

theorem ee_real_total (erfc : ℝ → ℝ) (st : Ewald) {ne : ℕ} (x : Fin ne → Vec3) :
    ∑ i, eeRealSep erfc st x i
      = ∑ j, ∑ i, if i < j then rsum erfc st (x j - x i) else 0 := by
  by_cases h : 1 < ne
  · simp only [eeRealSep, if_pos h]
    rw [← Finset.sum_div]
    have hsplit : ∀ i : Fin ne,
        (∑ j, if i < j then rsum erfc st (x j - x i)
          else if j < i then rsum erfc st (x i - x j) else 0)
          = (∑ j, if i < j then rsum erfc st (x j - x i) else 0)
            + ∑ j, if j < i then rsum erfc st (x i - x j) else 0 := by
      intro i
      rw [← Finset.sum_add_distrib]
      refine Finset.sum_congr rfl fun j _ => ?_
      rcases lt_trichotomy i j with hij | hij | hij
      · simp [hij, asymm hij]
      · subst hij; simp
      · simp [hij, asymm hij]
    rw [Finset.sum_congr rfl fun i _ => hsplit i, Finset.sum_add_distrib]
    rw [Finset.sum_comm (f := fun i j => if i < j then rsum erfc st (x j - x i) else 0)]
    ring
  · have hz : ∀ j i : Fin ne, ¬ i < j := by
      intro j i hij
      have h1 := i.isLt
      have h2 := j.isLt
      have h3 : (i : ℕ) < (j : ℕ) := hij
      omega
    simp [eeRealSep, h, hz]

/-! ### Per-configuration forms of the `ewald_electron` outputs -/

theorem ee_out (erfc : ℝ → ℝ) (st : Ewald) {ne : ℕ} (x : Fin ne → Vec3) :
    (List.ofFn fun i => eeSep erfc st x i).sum + (ne : ℝ) / 2 * gwsum st
      = (∑ j, ∑ i, if i < j then rsum erfc st (x j - x i) else 0)
        + (st.gdata.map fun gw => gw.2 * Complex.normSq (strucFac x gw.1)).sum := by
  rw [List.sum_ofFn]
  unfold eeSep
  rw [Finset.sum_add_distrib]
  simp only [one_mul]
  rw [ee_real_total, add_assoc, ee_recip_total]

theorem ei_out (erfc : ℝ → ℝ) (st : Ewald) {ne : ℕ} (x : Fin ne → Vec3) :
    (List.ofFn fun i => eiSep erfc st x i).sum
      = (∑ i, eiRealOne erfc st (x i)) + 2 * ∑ i, eiRecipOne st (x i) := by
  rw [List.sum_ofFn]
  unfold eiSep
  rw [Finset.sum_add_distrib, ← Finset.mul_sum]

/-- C2: for every configuration of a batch, the reciprocal-space
electron-electron energy as accumulated by `ewald_electron` — the per-particle
terms `Σ_G weight·(Re(conj(S_e)·exp(iG·x_i)) - 0.5)` summed over the particles
plus the compensating `Ne/2·Σ_G weight` added at the end — equals
`Σ_G weight·|S_e(G)|²` for the per-configuration structure factor `S_e`. -/
theorem c2_recip_ee_total_structure_factor (st : Ewald) (c : Configs) :
    ∀ x ∈ c.pos,
      (∑ i, eeRecipSep st x i) + (c.ne : ℝ) / 2 * gwsum st
        = (st.gdata.map fun gw => gw.2 * Complex.normSq (strucFac x gw.1)).sum :=
  fun x _ => ee_recip_total st x

theorem c2_witness :
    (∑ i, eeRecipSep ceSt (fun _ : Fin 1 => (0 : Vec3)) i) + (1 : ℝ) / 2 * gwsum ceSt
      = (ceSt.gdata.map fun gw =>
          gw.2 * Complex.normSq (strucFac (fun _ : Fin 1 => (0 : Vec3)) gw.1)).sum := by
  have h := c2_recip_ee_total_structure_factor ceSt cfg1 (fun _ => 0) (by simp [cfg1])
  simpa [cfg1] using h

/-! ### The constant-bookkeeping identity behind the per-particle sum -/

theorem sep_sum_identity (erfc : ℝ → ℝ) (st : Ewald) {ne : ℕ} (x : Fin ne → Vec3) :
    (ne : ℝ) * st.e_single ne
        + (List.ofFn fun i => eiSep erfc st x i + eeSep erfc st x i).sum
      = (((List.ofFn fun i => eeSep erfc st x i).sum + (ne : ℝ) / 2 * gwsum st)
            + st.ee_const ne)
        + ((List.ofFn fun i => eiSep erfc st x i).sum + st.ei_const ne)
        + ((ne : ℝ) * ((ne : ℝ) - 1) / 2 * st.ijconst - (ne : ℝ) / 2 * gwsum st) := by
  rw [List.sum_ofFn, List.sum_ofFn, List.sum_ofFn, Finset.sum_add_distrib]
  unfold Ewald.e_single Ewald.ee_const Ewald.ei_const
  ring

/-- C1, amended: after a full-batch evaluation, summing the per-particle
decomposition returned by `energy_separated` over the `Ne` particles of each
configuration equals the total `ee + ei` returned by `energy` for that
configuration PLUS the correction `Ne(Ne-1)/2·ijconst - Ne/2·Σ_G weight(G)`;
the uncorrected equality claimed by the spec fails whenever this correction is
nonzero (e.g. already for `Ne = 1` with a nonempty reciprocal set). -/
theorem c1_energy_separated_sum_corrected (erfc : ℝ → ℝ) (st : Ewald) (c : Configs) :
    (energy_separated (energy erfc st c).2 c).map List.sum
      = List.zipWith
          (fun a b => a + b
            + ((c.ne : ℝ) * ((c.ne : ℝ) - 1) / 2 * st.ijconst
                - (c.ne : ℝ) / 2 * gwsum st))
          (energy erfc st c).1.1 (energy erfc st c).1.2.1 := by
  have hst : (energy erfc st c).2 = (ewald_electron erfc st c).2 := rfl
  have hsep : ((ewald_electron erfc st c).2).ewalde_separated
      = c.pos.map fun x => List.ofFn fun i =>
          eiSep erfc st x i + eeSep erfc st x i := rfl
  have hsingle : ∀ m, ((ewald_electron erfc st c).2).e_single m = st.e_single m := fun _ => rfl
  rw [energy_separated, hst, hsep, hsingle]
  show ((c.pos.map fun x => List.ofFn fun i =>
      eiSep erfc st x i + eeSep erfc st x i).map fun row =>
        row.map fun v => st.e_single c.ne + v).map List.sum = _
  unfold energy ewald_electron
  simp only [List.map_map, List.map_ofFn, Function.comp_def]
  induction c.pos with
  | nil => simp
  | cons a l ih =>
    simp only [List.map_cons, List.zipWith_cons_cons, List.cons.injEq] at ih ⊢
    refine ⟨?_, ih⟩
    have hrow : (List.ofFn fun i =>
        st.e_single c.ne + (eiSep erfc st a i + eeSep erfc st a i)).sum
          = (c.ne : ℝ) * st.e_single c.ne
            + (List.ofFn fun i => eiSep erfc st a i + eeSep erfc st a i).sum := by
      rw [List.sum_ofFn, List.sum_ofFn, Finset.sum_add_distrib]
      simp [Finset.sum_const, Finset.card_univ, mul_comm]
    simpa [hrow] using sep_sum_identity erfc st a

/-- Helper: for single-electron configurations the `ee` output of
`ewald_electron` is exactly `Σ_G weight(G)` for every configuration. -/
theorem single_ee_out (erfc : ℝ → ℝ) (st : Ewald) (l : List (Fin 1 → Vec3)) :
    (ewald_electron erfc st ⟨1, l⟩).1.1 = l.map (fun _ => gwsum st) := by
  unfold ewald_electron
  simp only [List.map_map, Function.comp_def]
  refine List.map_congr_left fun x _ => ?_
  have h := ee_out erfc st x
  have hpair : (∑ j : Fin 1, ∑ i : Fin 1,
      if i < j then rsum erfc st (x j - x i) else 0) = 0 := by
    simp
  have hsq : (st.gdata.map fun gw => gw.2 * Complex.normSq (strucFac x gw.1)).sum
      = gwsum st := by
    unfold gwsum
    refine congrArg List.sum (List.map_congr_left fun gw _ => ?_)
    rw [show strucFac x gw.1 = eG gw.1 (x 0) from Fin.sum_univ_one _, normSq_eG, mul_one]
  rw [hpair, hsq, zero_add] at h
  simpa using h

/-- C4, amended: for a batch of single-electron configurations (`Ne = 1`) the
real-space mobile-mobile contribution is exactly zero, but the mobile-mobile
energy returned by `ewald_electron` (constants excluded) is `Σ_G weight(G)`,
not zero: the reciprocal sum retains the particle's self-interaction
`Σ_G weight(G)·|S_e|² = Σ_G weight(G)`, which is cancelled only later by the
self/background constants. -/
theorem c4_single_electron_corrected (erfc : ℝ → ℝ) (st : Ewald)
    (l : List (Fin 1 → Vec3)) :
    (ewald_electron erfc st ⟨1, l⟩).1.1 = l.map (fun _ => gwsum st)
      ∧ ∀ x : Fin 1 → Vec3, ∀ i, eeRealSep erfc st x i = 0 := by
  refine ⟨single_ee_out erfc st l, fun x i => ?_⟩
  simp [eeRealSep]

/-- C8: the constants stored by `set_ewald_constants` equal the spec's closed
forms: with `C_pair = -π/(V·α²)` and `C_self = -α/√π + C_pair/2`, the
mobile-mobile constant is `Ne(Ne-1)/2·C_pair + Ne·C_self`, the mobile-fixed
constant is `-Ne·(Σ fixed charges)·C_pair`, and the per-mobile-particle
constant is `(Ne-1)·C_pair - (Σ fixed charges)·C_pair + C_self`. -/
theorem c8_constants_closed_forms (erfc : ℝ → ℝ) (atoms : List Vec3)
    (charges : List ℝ) (latvec : Mat3) (gmax nlatvec ne : ℕ) :
    (setupAux erfc atoms charges latvec gmax nlatvec).ee_const ne
        = specMobileMobile (Matrix.det latvec) (alphaOf latvec) ne
      ∧ (setupAux erfc atoms charges latvec gmax nlatvec).ei_const ne
        = specMobileFixed (Matrix.det latvec) (alphaOf latvec) charges.sum ne
      ∧ (setupAux erfc atoms charges latvec gmax nlatvec).e_single ne
        = specPerParticle (Matrix.det latvec) (alphaOf latvec) charges.sum ne := by
  refine ⟨?_, ?_, ?_⟩ <;>
    simp only [setupAux, Ewald.ee_const, Ewald.ei_const, Ewald.e_single, Ewald.i_sum,
      specMobileMobile, specMobileFixed, specPerParticle, specCpair, specCself]

/-- C9: the energy-evaluation operations leave every setup artifact of the
`Ewald` state unchanged — lattice, fixed particles, lattice displacements,
alpha, reciprocal vectors and weights, ion structure factor, the constants and
the ion-ion energy — and the only fields that change are the cached
per-particle decomposition; `energy` threads exactly the state produced by
`ewald_electron`, while `energy_separated` and `energy_with_test_pos` return
values only and touch no state at all (their embedded types are pure). -/
theorem c9_frame (erfc : ℝ → ℝ) (st : Ewald) (c : Configs) :
    ((ewald_electron erfc st c).2.latvec = st.latvec
      ∧ (ewald_electron erfc st c).2.atom_coords = st.atom_coords
      ∧ (ewald_electron erfc st c).2.atom_charges = st.atom_charges
      ∧ (ewald_electron erfc st c).2.lattice_displacements = st.lattice_displacements
      ∧ (ewald_electron erfc st c).2.alpha = st.alpha
      ∧ (ewald_electron erfc st c).2.gdata = st.gdata
      ∧ (ewald_electron erfc st c).2.ion_exp = st.ion_exp
      ∧ (ewald_electron erfc st c).2.ijconst = st.ijconst
      ∧ (ewald_electron erfc st c).2.squareconst = st.squareconst
      ∧ (ewald_electron erfc st c).2.ii_const = st.ii_const
      ∧ (ewald_electron erfc st c).2.ion_ion = st.ion_ion)
      ∧ (energy erfc st c).2 = (ewald_electron erfc st c).2 :=
  ⟨⟨rfl, rfl, rfl, rfl, rfl, rfl, rfl, rfl, rfl, rfl, rfl⟩, rfl⟩

/-- C10: `energy_separated` reads only the electron count of its argument's
shape and the cached per-particle decomposition; two configuration batches of
the same shape produce identical results regardless of the particle positions
they contain. -/
theorem c10_separated_ignores_positions (st : Ewald) (ca cb : Configs)
    (h : ca.ne = cb.ne) :
    energy_separated st ca = energy_separated st cb := by
  unfold energy_separated
  rw [h]

theorem c10_witness :
    energy_separated ceSt cfg1
      = energy_separated ceSt ⟨1, [fun _ => ![5, 5, 5]]⟩ :=
  c10_separated_ignores_positions ceSt cfg1 ⟨1, [fun _ => ![5, 5, 5]]⟩ rfl

/-- C5, amended: a degenerate lattice in the strict sense — a singular
lattice-vector matrix — makes construction fail at setup, but with the
linear-algebra singular-matrix error raised by matrix inversion, not with the
spec's `GeometryError` (which appears nowhere in the code); alpha is never
produced in that case. -/
theorem c5_degenerate_lattice_corrected (erfc : ℝ → ℝ) (atoms : List Vec3)
    (charges : List ℝ) (latvec : Mat3) (gmax nlatvec : ℕ)
    (h : Matrix.det latvec = 0) :
    setUp erfc atoms charges latvec gmax nlatvec = .error .linAlgError := by
  simp [setUp, h]

theorem c5_witness :
    setUp erfc0 [] [] (0 : Mat3) 1 2 = .error .linAlgError :=
  c5_degenerate_lattice_corrected erfc0 [] [] 0 1 2 (by simp)

theorem c5_counterexample :
    setUp erfc0 [] [] (0 : Mat3) 1 2 = .error .linAlgError
      ∧ (Except.error PyError.linAlgError : Except PyError Ewald)
          ≠ .error .geometryError := by
  constructor
  · simp [setUp]
  · simp

/-! ### Shape-mismatch propagation for the raw entry point -/

theorem toVec3_err (l : List ℝ) (h : l.length ≠ 3) : toVec3 l = .error .valueError :=
  match l, h with
  | [], _ => rfl
  | [_], _ => rfl
  | [_, _], _ => rfl
  | [_, _, _], h => absurd rfl h
  | _ :: _ :: _ :: _ :: _, _ => rfl

theorem toVec3_cases (l : List ℝ) :
    (∃ v, toVec3 l = .ok v) ∨ toVec3 l = .error .valueError :=
  match l with
  | [] => .inr rfl
  | [_] => .inr rfl
  | [_, _] => .inr rfl
  | [_, _, _] => .inl ⟨_, rfl⟩
  | _ :: _ :: _ :: _ :: _ => .inr rfl

theorem mapE_cases {α β : Type*} (f : α → Except PyError β)
    (hf : ∀ a, (∃ v, f a = .ok v) ∨ f a = .error .valueError) (l : List α) :
    (∃ v, mapE f l = .ok v) ∨ mapE f l = .error .valueError := by
  induction l with
  | nil => exact .inl ⟨_, rfl⟩
  | cons a tl ih =>
    rcases hf a with ⟨v, hv⟩ | hv
    · rcases ih with ⟨r, hr⟩ | hr
      · exact .inl ⟨v :: r, by simp [mapE, hv, hr]⟩
      · exact .inr (by simp [mapE, hv, hr])
    · exact .inr (by simp [mapE, hv])

theorem mapE_err {α β : Type*} (f : α → Except PyError β)
    (hf : ∀ a, (∃ v, f a = .ok v) ∨ f a = .error .valueError) (l : List α) (a : α)
    (ha : a ∈ l) (he : f a = .error .valueError) :
    mapE f l = .error .valueError := by
  induction l with
  | nil => cases ha
  | cons b tl ih =>
    rcases List.mem_cons.1 ha with h | h
    · subst h
      simp [mapE, he]
    · rcases hf b with ⟨v, hv⟩ | hv
      · simp [mapE, hv, ih h]
      · simp [mapE, hv]

/-- C6: a raw position array whose trailing (coordinate) axis does not match
the cell's dimensionality 3 is rejected: the raw entry of `ewald_electron`
fails with the shape mismatch error, returns no partial results, and produces
no updated state (the caller's `Ewald` object is untouched, since the cache is
written only after every sum completes). -/
theorem c6_shape_mismatch (erfc : ℝ → ℝ) (st : Ewald) (ne : ℕ)
    (raw : List (List (List ℝ)))
    (h : ∃ rows ∈ raw, ∃ row ∈ rows, row.length ≠ 3) :
    ewald_electron_raw erfc st ne raw = .error .valueError := by
  rcases h with ⟨rows, hrows, row, hrow, hlen⟩
  have h1 : mapE toVec3 rows = .error .valueError :=
    mapE_err toVec3 toVec3_cases rows row hrow (toVec3_err row hlen)
  have h2 : mapE (mapE toVec3) raw = .error .valueError :=
    mapE_err (mapE toVec3) (mapE_cases toVec3 toVec3_cases) raw rows hrows h1
  simp [ewald_electron_raw, h2]

theorem c6_witness :
    ewald_electron_raw erfc0 ceSt 1 [[[(0 : ℝ), 0]]] = .error .valueError :=
  c6_shape_mismatch erfc0 ceSt 1 [[[(0 : ℝ), 0]]]
    ⟨[[(0 : ℝ), 0]], by simp, [(0 : ℝ), 0], by simp, by simp⟩

/-- C7: every reciprocal vector stored at a successful setup comes from an
integer triple of `[-gmax, gmax]³` that passes the lexicographic half-space
test `x + 1e-6·y + 1e-12·z > 0`; its stored weight is exactly
`4π/(V·|G|²)·exp(-|G|²/(4α²))`, strictly positive and above the `1e-10`
threshold; and the vector itself is nonzero — in particular `G = 0` is never
stored. -/
theorem c7_reciprocal_invariants (erfc : ℝ → ℝ) (atoms : List Vec3) (charges : List ℝ)
    (latvec : Mat3) (gmax nlatvec : ℕ) (st : Ewald)
    (h : setUp erfc atoms charges latvec gmax nlatvec = .ok st) :
    ∀ p ∈ st.gdata, ∃ n ∈ cube gmax, halfspace n
      ∧ p.1 = toG latvec n ∧ p.2 = gwOf latvec p.1
      ∧ (1e-10 : ℝ) < p.2 ∧ 0 < p.2 ∧ p.1 ≠ 0 := by
  have hdet : Matrix.det latvec ≠ 0 := by
    intro h0
    simp [setUp, h0] at h
  have hst : st = setupAux erfc atoms charges latvec gmax nlatvec := by
    simp [setUp, hdet] at h
    exact h.symm
  subst hst
  intro p hp
  have hp' : p ∈ gdataOf latvec gmax := hp
  rw [gdataOf, List.mem_filter] at hp'
  obtain ⟨hmem, hw⟩ := hp'
  rw [List.mem_map] at hmem
  obtain ⟨n, hn, hpn⟩ := hmem
  rw [gcands, List.mem_filter] at hn
  obtain ⟨hcube, hhalf⟩ := hn
  have hhalf' : halfspace n := of_decide_eq_true hhalf
  have hw' : (1e-10 : ℝ) < p.2 := of_decide_eq_true hw
  refine ⟨n, hcube, hhalf', (congrArg Prod.fst hpn).symm, ?_, hw',
    lt_trans (by norm_num) hw', ?_⟩
  · rw [← hpn]
  · rw [← hpn]
    show toG latvec n ≠ 0
    have hnv : toRVec n ≠ 0 := by
      intro h0
      have h1 : (n.1 : ℝ) = 0 := by simpa [toRVec] using congrFun h0 0
      have h2 : (n.2.1 : ℝ) = 0 := by simpa [toRVec] using congrFun h0 1
      have h3 : (n.2.2 : ℝ) = 0 := by simpa [toRVec] using congrFun h0 2
      rw [halfspace, h1, h2, h3] at hhalf'
      norm_num at hhalf'
    have hvm : Matrix.vecMul (toRVec n) latvec⁻¹ ≠ 0 := by
      intro h0
      apply hnv
      have h4 := congrArg (fun w => Matrix.vecMul w latvec) h0
      simpa [Matrix.vecMul_vecMul,
        Matrix.nonsing_inv_mul latvec (isUnit_iff_ne_zero.mpr hdet),
        Matrix.zero_vecMul] using h4
    exact smul_ne_zero (by positivity) hvm


/-! ### The reciprocal set of the concrete cubic cell is nonempty and has
positive total weight -/

theorem alphaOf_one : alphaOf 1 = 5 := by
  simp [alphaOf, smallestheight, tmpheight, rowlen, crossprod, Matrix.det_one,
    inv_one, Matrix.transpose_one, Matrix.one_apply, Fin.sum_univ_three]
  norm_num

theorem toG_one_dot :
    dotProduct (toG 1 ((1 : ℤ), (0 : ℤ), (0 : ℤ))) (toG 1 ((1 : ℤ), (0 : ℤ), (0 : ℤ)))
      = 4 * Real.pi ^ 2 := by
  simp [toG, toRVec, inv_one, Matrix.vecMul_one, dotProduct, Fin.sum_univ_three,
    Pi.smul_apply, smul_eq_mul]
  ring

theorem gw_key : (1e-10 : ℝ) < gwOf 1 (toG 1 ((1 : ℤ), (0 : ℤ), (0 : ℤ))) := by
  rw [gwOf, toG_one_dot, alphaOf_one, Matrix.det_one, one_mul]
  have hpi := Real.pi_pos
  have hpi2 : Real.pi < 3.15 := Real.pi_lt_d2
  have hexp : 1 + -(Real.pi ^ 2) / 25 ≤ Real.exp (-(Real.pi ^ 2) / 25) := by
    have h := Real.add_one_le_exp (-(Real.pi ^ 2) / 25)
    linarith
  have h4 : -(4 * Real.pi ^ 2) / (4 * (5 : ℝ) ^ 2) = -(Real.pi ^ 2) / 25 := by ring
  rw [h4, lt_div_iff₀ (by positivity)]
  nlinarith [Real.exp_pos (-(Real.pi ^ 2) / 25)]

theorem ceSt_gdata_mem :
    (toG 1 ((1 : ℤ), (0 : ℤ), (0 : ℤ)),
      gwOf 1 (toG 1 ((1 : ℤ), (0 : ℤ), (0 : ℤ)))) ∈ ceSt.gdata := by
  show _ ∈ gdataOf 1 1
  rw [gdataOf, List.mem_filter]
  refine ⟨?_, decide_eq_true gw_key⟩
  rw [List.mem_map]
  refine ⟨((1 : ℤ), (0 : ℤ), (0 : ℤ)), ?_, rfl⟩
  rw [gcands, List.mem_filter]
  refine ⟨by decide, decide_eq_true ?_⟩
  norm_num [halfspace]

theorem c7_witness :
    ∃ n ∈ cube 1, halfspace n
      ∧ (toG 1 ((1 : ℤ), (0 : ℤ), (0 : ℤ)),
          gwOf 1 (toG 1 ((1 : ℤ), (0 : ℤ), (0 : ℤ)))).1 = toG 1 n
      ∧ (toG 1 ((1 : ℤ), (0 : ℤ), (0 : ℤ)),
          gwOf 1 (toG 1 ((1 : ℤ), (0 : ℤ), (0 : ℤ)))).2
        = gwOf 1 (toG 1 ((1 : ℤ), (0 : ℤ), (0 : ℤ)),
            gwOf 1 (toG 1 ((1 : ℤ), (0 : ℤ), (0 : ℤ)))).1
      ∧ (1e-10 : ℝ) < (toG 1 ((1 : ℤ), (0 : ℤ), (0 : ℤ)),
          gwOf 1 (toG 1 ((1 : ℤ), (0 : ℤ), (0 : ℤ)))).2
      ∧ 0 < (toG 1 ((1 : ℤ), (0 : ℤ), (0 : ℤ)),
          gwOf 1 (toG 1 ((1 : ℤ), (0 : ℤ), (0 : ℤ)))).2
      ∧ (toG 1 ((1 : ℤ), (0 : ℤ), (0 : ℤ)),
          gwOf 1 (toG 1 ((1 : ℤ), (0 : ℤ), (0 : ℤ)))).1 ≠ 0 :=
  c7_reciprocal_invariants erfc0 [] [] 1 1 2 ceSt
    (by simp [setUp, ceSt, Matrix.det_one]) _ ceSt_gdata_mem

theorem sum_snd_pos (l : List (Vec3 × ℝ)) (hne : l ≠ [])
    (hpos : ∀ p ∈ l, (0 : ℝ) < p.2) : 0 < (l.map Prod.snd).sum := by
  cases l with
  | nil => exact absurd rfl hne
  | cons p tl =>
    simp only [List.map_cons, List.sum_cons]
    have h1 : 0 < p.2 := hpos p (List.mem_cons_self p tl)
    have h2 : 0 ≤ (tl.map Prod.snd).sum := by
      refine List.sum_nonneg fun a ha => ?_
      rw [List.mem_map] at ha
      obtain ⟨q, hq, rfl⟩ := ha
      exact le_of_lt (hpos q (List.mem_cons_of_mem _ hq))
    linarith

theorem gwsum_ceSt_pos : 0 < gwsum ceSt := by
  refine sum_snd_pos _ (List.ne_nil_of_mem ceSt_gdata_mem) fun p hp => ?_
  have hp' : p ∈ gdataOf 1 1 := hp
  rw [gdataOf, List.mem_filter] at hp'
  exact lt_trans (by norm_num) (of_decide_eq_true hp'.2)

theorem c4_counterexample :
    (ewald_electron erfc0 ceSt cfg1).1.1.headD 0 ≠ 0 := by
  have h := single_ee_out erfc0 ceSt [fun _ => 0]
  rw [show cfg1 = (⟨1, [fun _ => 0]⟩ : Configs) from rfl, h]
  simpa using ne_of_gt gwsum_ceSt_pos

theorem c1_counterexample :
    ((energy_separated (energy erfc0 ceSt cfg1).2 cfg1).headD []).sum
      ≠ (energy erfc0 ceSt cfg1).1.1.headD 0
        + (energy erfc0 ceSt cfg1).1.2.1.headD 0 := by
  have key := sep_sum_identity erfc0 ceSt (fun _ : Fin 1 => (0 : Vec3))
  have hpos := gwsum_ceSt_pos
  have hst : (energy erfc0 ceSt cfg1).2 = (ewald_electron erfc0 ceSt cfg1).2 := rfl
  have hsep : ((ewald_electron erfc0 ceSt cfg1).2).ewalde_separated
      = [List.ofFn fun i =>
          eiSep erfc0 ceSt (fun _ => 0) i + eeSep erfc0 ceSt (fun _ => 0) i] := rfl
  have hsingle : ∀ m, ((ewald_electron erfc0 ceSt cfg1).2).e_single m
      = ceSt.e_single m := fun _ => rfl
  rw [energy_separated, hst, hsep, hsingle]
  show ((([List.ofFn fun i =>
      eiSep erfc0 ceSt (fun _ => 0) i + eeSep erfc0 ceSt (fun _ => 0) i]).map
        fun row => row.map fun v => ceSt.e_single cfg1.ne + v).headD []).sum ≠ _
  unfold energy ewald_electron
  simp only [cfg1, List.map_cons, List.map_nil, List.headD_cons, List.map_ofFn,
    Function.comp_def, List.sum_ofFn, Fin.sum_univ_one, Nat.cast_one]
  intro heq
  simp only [List.sum_ofFn, Fin.sum_univ_one, Nat.cast_one] at key
  nlinarith [key, hpos, heq]

/-! ### Test-position consistency (C3) -/

theorem snoc_sum {ne : ℕ} (f : Vec3 → ℝ) (x : Fin ne → Vec3) (t : Vec3) :
    ∑ i : Fin (ne + 1), f ((Fin.snoc x t : Fin (ne + 1) → Vec3) i)
      = (∑ i, f (x i)) + f t := by
  rw [Fin.sum_univ_castSucc]
  simp [Fin.snoc_castSucc, Fin.snoc_last]

theorem pair_snoc (erfc : ℝ → ℝ) (st : Ewald) {ne : ℕ} (x : Fin ne → Vec3) (t : Vec3) :
    (∑ j : Fin (ne + 1), ∑ i : Fin (ne + 1),
        if i < j then rsum erfc st ((Fin.snoc x t : Fin (ne + 1) → Vec3) j
          - (Fin.snoc x t : Fin (ne + 1) → Vec3) i) else 0)
      = (∑ j : Fin ne, ∑ i : Fin ne, if i < j then rsum erfc st (x j - x i) else 0)
        + ∑ j : Fin ne, rsum erfc st (t - x j) := by
  rw [Fin.sum_univ_castSucc]
  congr 1
  · refine Finset.sum_congr rfl fun j _ => ?_
    rw [Fin.sum_univ_castSucc]
    have hlast : ¬ (Fin.last ne < Fin.castSucc j) :=
      not_lt_of_gt (Fin.castSucc_lt_last j)
    simp [Fin.snoc_castSucc, Fin.snoc_last, hlast, Fin.castSucc_lt_castSucc_iff]
  · rw [Fin.sum_univ_castSucc]
    simp [Fin.snoc_castSucc, Fin.snoc_last, Fin.castSucc_lt_last]

theorem strucFac_snoc {ne : ℕ} (x : Fin ne → Vec3) (t : Vec3) (g : Vec3) :
    strucFac (Fin.snoc x t) g = strucFac x g + eG g t := by
  unfold strucFac
  rw [Fin.sum_univ_castSucc]
  simp [Fin.snoc_castSucc, Fin.snoc_last]

theorem recip_total_snoc (st : Ewald) {ne : ℕ} (x : Fin ne → Vec3) (t : Vec3) :
    (st.gdata.map fun gw => gw.2 * Complex.normSq (strucFac (Fin.snoc x t) gw.1)).sum
      = (st.gdata.map fun gw => gw.2 * Complex.normSq (strucFac x gw.1)).sum
        + gwsum st
        + 2 * (st.gdata.map fun gw =>
            ((starRingEnd ℂ) (eG gw.1 t) * strucFac x gw.1).re * gw.2).sum := by
  unfold gwsum
  rw [← lsum_mul, ← lsum_add, ← lsum_add]
  refine congrArg List.sum (List.map_congr_left fun gw _ => ?_)
  rw [strucFac_snoc, Complex.normSq_add, normSq_eG]
  have hc : (strucFac x gw.1 * (starRingEnd ℂ) (eG gw.1 t)).re
      = ((starRingEnd ℂ) (eG gw.1 t) * strucFac x gw.1).re := by rw [mul_comm]
  rw [hc]
  ring

theorem zip_snd_sum (st : Ewald) (h : st.gdata.length ≤ st.ion_exp.length) :
    ((st.gdata.zip st.ion_exp).map fun q => q.1.2).sum = gwsum st := by
  have hmap : (st.gdata.zip st.ion_exp).map (fun q => q.1.2)
      = st.gdata.map Prod.snd := by
    rw [show (fun q : (Vec3 × ℝ) × ℂ => q.1.2) = Prod.snd ∘ Prod.fst from rfl]
    rw [← List.map_map, List.map_fst_zip _ _ h]
  rw [hmap]
  rfl

theorem vtestCol_sum (erfc : ℝ → ℝ) (st : Ewald) {ne : ℕ} (x : Fin ne → Vec3) (t : Vec3) :
    ∑ j : Fin ne, vtestCol erfc st x t j
      = (ne : ℝ) * st.ijconst + (∑ j, rsum erfc st (t - x j))
        + 2 * (st.gdata.map fun gw =>
            ((starRingEnd ℂ) (eG gw.1 t) * strucFac x gw.1).re * gw.2).sum := by
  unfold vtestCol
  rw [Finset.sum_add_distrib, Finset.sum_add_distrib]
  congr 1
  · congr 1
    simp [Finset.sum_const, Finset.card_univ, mul_comm]
  · rw [← Finset.mul_sum, lsum_swap]
    refine congrArg (fun s => 2 * s) (congrArg List.sum (List.map_congr_left fun gw _ => ?_))
    rw [← Finset.sum_mul]
    congr 1
    rw [← Complex.re_sum, ← Finset.mul_sum, ← strucFac]

theorem vtestLast_eq (erfc : ℝ → ℝ) (st : Ewald)
    (h : st.gdata.length ≤ st.ion_exp.length) (t : Vec3) :
    vtestLast erfc st t
      = st.e_single_test + eiRealOne erfc st t + 2 * eiRecipOne st t + gwsum st := by
  unfold vtestLast eiRecipOne
  rw [show (fun q : (Vec3 × ℝ) × ℂ => ((-(starRingEnd ℂ) q.2 * eG q.1.1 t).re + 0.5) * q.1.2)
      = fun q => (-(starRingEnd ℂ) q.2 * eG q.1.1 t).re * q.1.2 + 0.5 * q.1.2 from by
    funext q
    ring]
  rw [lsum_add, lsum_mul, zip_snd_sum st h]
  ring

/-- C3: appending the test particle to a configuration and calling the full
evaluator (`energy` on `Ne+1` particles) reproduces exactly the incremental
energy given by the row of `energy_with_test_pos`: the increase of the total
`ee + ei` energy (constants included) equals the sum of the `Ne+1` columns —
columns `0..Ne-1` holding the unhalved real+reciprocal pairwise energy with
each existing particle (plus its `ijconst` share), column `Ne` the interaction
with the fixed particles plus the test-particle self/background constant.
The hypothesis records the setup invariant that the cached ion structure
factor covers every stored reciprocal vector. -/
theorem c3_test_pos_consistency (erfc : ℝ → ℝ) (st : Ewald)
    (h : st.gdata.length ≤ st.ion_exp.length) {ne : ℕ} (x : Fin ne → Vec3) (t : Vec3) :
    ((energy erfc st ⟨ne + 1, [Fin.snoc x t]⟩).1.1.sum
        + (energy erfc st ⟨ne + 1, [Fin.snoc x t]⟩).1.2.1.sum)
      - ((energy erfc st ⟨ne, [x]⟩).1.1.sum + (energy erfc st ⟨ne, [x]⟩).1.2.1.sum)
      = ((energy_with_test_pos erfc st ⟨ne, [x]⟩ [t]).headD []).sum := by
  have henergy : ∀ (m : ℕ) (y : Fin m → Vec3),
      (energy erfc st ⟨m, [y]⟩).1.1.sum + (energy erfc st ⟨m, [y]⟩).1.2.1.sum
        = ((∑ j, ∑ i, if i < j then rsum erfc st (y j - y i) else 0)
            + (st.gdata.map fun gw => gw.2 * Complex.normSq (strucFac y gw.1)).sum
            + st.ee_const m)
          + ((∑ i, eiRealOne erfc st (y i)) + 2 * (∑ i, eiRecipOne st (y i))
            + st.ei_const m) := by
    intro m y
    unfold energy ewald_electron
    simp only [List.map_cons, List.map_nil, List.sum_cons, List.sum_nil, add_zero]
    have h1 := ee_out erfc st y
    have h2 := ei_out erfc st y
    linarith
  have hrhs : ((energy_with_test_pos erfc st ⟨ne, [x]⟩ [t]).headD []).sum
      = (∑ j, vtestCol erfc st x t j) + vtestLast erfc st t := by
    unfold energy_with_test_pos
    show (List.ofFn (Fin.snoc (fun j => vtestCol erfc st x t j) (vtestLast erfc st t))).sum = _
    rw [List.sum_ofFn, Fin.sum_univ_castSucc]
    simp [Fin.snoc_castSucc, Fin.snoc_last]
  rw [henergy (ne + 1) (Fin.snoc x t), henergy ne x, hrhs, vtestCol_sum,
    vtestLast_eq erfc st h t, pair_snoc, recip_total_snoc,
    snoc_sum (eiRealOne erfc st) x t, snoc_sum (eiRecipOne st) x t]
  unfold Ewald.ee_const Ewald.ei_const Ewald.e_single_test
  push_cast
  ring

theorem c3_witness :
    ((energy erfc0 ceSt ⟨0 + 1, [Fin.snoc Fin.elim0 (0 : Vec3)]⟩).1.1.sum
        + (energy erfc0 ceSt ⟨0 + 1, [Fin.snoc Fin.elim0 (0 : Vec3)]⟩).1.2.1.sum)
      - ((energy erfc0 ceSt ⟨0, [Fin.elim0]⟩).1.1.sum
        + (energy erfc0 ceSt ⟨0, [Fin.elim0]⟩).1.2.1.sum)
      = ((energy_with_test_pos erfc0 ceSt ⟨0, [Fin.elim0]⟩ [(0 : Vec3)]).headD []).sum :=
  c3_test_pos_consistency erfc0 ceSt (by simp [ceSt, setupAux]) Fin.elim0 (0 : Vec3)

end PyQMC
